import Mathlib

/-!
Verification development for the changelog generator (changelog.go).

The program resolves two endpoint strings to commits, checks ancestry,
walks the commit graph from the end commit down to (exclusive of) the
start commit, and renders a report (author list, commit table).

The history store (commit lookup, reference lookup, peeling, the
ancestry query DescendantOf and the topologically sorted revwalk) lives in the
external git2go/libgit2 library, which is not part of this repository's
sources; following the spec's design notes (section 9) those become an
injected in-memory collaborator: a Store value plus, for the walker, an
explicit emission stream constrained by the walker's contract.
-/

/-- A commit node: id is the fixed-length hex identifier
(Commit.Id().String() in the source), parents are parent identifiers. -/
structure Commit where
  id : String
  parents : List String
  authorName : String
  message : String
deriving Repr, DecidableEq

/-- A reference target: ReferenceOid (direct) or ReferenceSymbolic. -/
inductive RefTarget where
  | direct (oid : String)
  | symbolic (name : String)
deriving Repr, DecidableEq

/-- Modelled from the spec: the in-memory history store standing in for
the external git2go repository (spec section 6: commit metadata lookup,
reference lookup, and peeling a reference down to a commit). -/
structure Store where
  commits : List Commit
  refs : List (String × RefTarget)
  peel : String → Option Commit

/-- repo.LookupCommit modelled over the in-memory commit list. -/
def lookupCommit (commits : List Commit) (oid : String) : Option Commit :=
  commits.find? (fun c => c.id == oid)

/-- repo.References.Lookup modelled over the in-memory reference list. -/
def lookupRef (store : Store) (name : String) : Option RefTarget :=
  (store.refs.find? (fun p => p.1 == name)).map Prod.snd

/-- Parent edges of a node; oids with no commit in the store have none. -/
def parentsOf (store : Store) (oid : String) : List String :=
  match lookupCommit store.commits oid with
  | some c => c.parents
  | none => []

/-- Boolean membership used by the boolean stream/author predicates. -/
def memB (x : String) (l : List String) : Bool :=
  l.any (fun y => y == x)

/-- Whether a character is accepted by Go's encoding/hex decoder. -/
def goIsHexDigit (c : Char) : Bool :=
  (decide ('0' ≤ c) && decide (c ≤ '9')) ||
  (decide ('a' ≤ c) && decide (c ≤ 'f')) ||
  (decide ('A' ≤ c) && decide (c ≤ 'F'))

/-- Whether hex.DecodeString(s) succeeds in Go: even length and every
character a hex digit (this is the dispatch test of getCommit). -/
def hexDecodable (s : String) : Bool :=
  s.length % 2 == 0 && s.toList.all goIsHexDigit

/-- Failure outcomes of getCommit (the source aborts via log.Panicf;
each abort site is mapped to one constructor). -/
inductive ResolveError where
  /-- The spec's NotFoundError: hash with no commit, or unknown ref name. -/
  | notFound
  /-- Modelled from the spec: git2go's NewOidFromBytes (external) requires
  a full fixed-length (20-byte, 40 hex character) identifier; hex input of
  any other length does not produce a usable oid. -/
  | oidError
  /-- A direct reference whose target commit is missing from the store. -/
  | directTargetMissing
  /-- The spec's ResolutionError: symbolic indirection fails to reach a
  commit (target ref missing, or peeling does not yield a commit). -/
  | resolutionError
deriving Repr, DecidableEq

/-- getCommit from the source: try the endpoint as hex first; on success
construct an oid and look the commit up directly; otherwise look the
endpoint up as a reference, following a symbolic reference exactly one
level (lookup of its target, then peel of that target to a commit). -/
def getCommit (store : Store) (refOrHash : String) : Except ResolveError Commit :=
  if hexDecodable refOrHash then
    if refOrHash.length = 40 then
      match lookupCommit store.commits refOrHash.toLower with
      | some c => Except.ok c
      | none => Except.error ResolveError.notFound
    else
      Except.error ResolveError.oidError
  else
    match lookupRef store refOrHash with
    | none => Except.error ResolveError.notFound
    | some (RefTarget.direct oid) =>
      match lookupCommit store.commits oid with
      | some c => Except.ok c
      | none => Except.error ResolveError.directTargetMissing
    | some (RefTarget.symbolic target) =>
      match lookupRef store target with
      | none => Except.error ResolveError.resolutionError
      | some _ =>
        match store.peel target with
        | some c => Except.ok c
        | none => Except.error ResolveError.resolutionError

/-- Fuel for the bounded reachability search: a simple parent-edge path
traverses each stored commit at most once. -/
def walkFuel (store : Store) : Nat :=
  store.commits.length

/-- Modelled from the spec: parent-edge reachability with fuel; target
reachable from u by following at most the given number of parent edges. -/
def reachB (store : Store) : Nat → String → String → Bool
  | 0, u, t => u == t
  | fuel + 1, u, t =>
    u == t || (parentsOf store u).any (fun p => reachB store fuel p t)

/-- Modelled from the spec: repo.DescendantOf (external libgit2), per
spec section 4.2 a pure parent-edge reachability query, true on equal
endpoints (trivial ancestry). -/
def descendantOf (store : Store) (commitId ancestorId : String) : Bool :=
  reachB store (walkFuel store) commitId ancestorId

/-- The spec's Ancestry Checker contract isAncestor(candidate,
descendant); the pipeline computes it as DescendantOf(descendant,
candidate). -/
def isAncestor (store : Store) (candidateId descendantId : String) : Bool :=
  descendantOf store descendantId candidateId

/-- Failure outcome of getCommitChain. The source's post-loop check of
the walk error tests the outer err variable (the for-init declares a
fresh err), and that outer err is necessarily nil once Push succeeded,
so no walk-exhaustion abort is reachable: reachability failure is the
only error this function can produce. -/
inductive WalkError where
  | unreachable (endId startId : String)
deriving Repr, DecidableEq

/-- The collection loop of getCommitChain: consume the walker's emission
stream, stopping (and discarding the terminal node) at the start id. -/
def walkLoop (stream : List String) (startId : String) : List String :=
  match stream with
  | [] => []
  | c :: rest => if c == startId then [] else c :: walkLoop rest startId

/-- getCommitChain from the source: check DescendantOf(end, start),
aborting (naming both identifiers) when it fails, then collect the
walker's emissions until the start id is met. The emission stream of
the external revwalker is passed explicitly (spec design note 9). -/
def getCommitChain (store : Store) (stream : List String)
    (endC startC : Commit) : Except WalkError (List String) :=
  if descendantOf store endC.id startC.id then
    Except.ok (walkLoop stream startC.id)
  else
    Except.error (WalkError.unreachable endC.id startC.id)

/-- truncateBytes from the source. Go's slice expression b[0:n-1] is
modelled with an out-of-range bound mapped to none (a Go runtime abort). -/
def truncateBytes (b : List Char) (n : Int) : Option (List Char) :=
  if n = -1 then
    some b
  else
    let m : Int := if (b.length : Int) < n then (b.length : Int) else n
    if 0 ≤ m - 1 then some (b.take (m - 1).toNat) else none

/-- The commit_hash_digits normalization of parseJSONConfig: a value of
zero or below becomes the special no-truncation sentinel -1. -/
def normalizeHashDigits (d : Int) : Int :=
  if d ≤ 0 then -1 else d

/-- The commit identifier as rendered by writeCommitChain: the commit is
looked up and its identifier passed through truncateBytes with the
configured width. -/
def renderedCommitID (store : Store) (digits : Int) (oid : String) : Option String :=
  match lookupCommit store.commits oid with
  | none => none
  | some c => (truncateBytes c.id.toList digits).map (fun l => String.mk l)

/-- The author-set accumulation loop of getAuthorListString. The Go map
keyed by author name is modelled as a list with insert-if-absent; Go's
map iteration order is unspecified, so first-insertion order stands in
as the deterministic tie-break (the spec calls the order irrelevant). -/
def insertAuthor (names : List String) (n : String) : List String :=
  if memB n names then names else names ++ [n]

/-- The lookup-and-insert fold of getAuthorListString over the chain;
none models the abort when a chain entry has no commit in the store. -/
def chainAuthors (store : Store) : List String → List String → Option (List String)
  | acc, [] => some acc
  | acc, oid :: rest =>
    match lookupCommit store.commits oid with
    | none => none
    | some c => chainAuthors store (insertAuthor acc c.authorName) rest

/-- getAuthorListString from the source: build the author set over the
chain, then write every name followed by a comma. -/
def getAuthorListString (store : Store) (chain : List String) : Option String :=
  (chainAuthors store [] chain).map
    (fun names => names.foldl (fun s n => s ++ n ++ ",") "")

/-- Boolean pairwise check over a string list. -/
def pairwiseB (R : String → String → Bool) : List String → Bool
  | [] => true
  | x :: xs => xs.all (fun y => R x y) && pairwiseB R xs

/-- Modelled from the spec: the contract of the external revwalker with
topological sorting pushed at the end commit (spec section 4.3): the
emission stream has no duplicates, emits the end commit, is closed under
parent edges, emits only nodes reachable from the end commit, and emits
every node before all of its parents. -/
def topoWalkStream (store : Store) (endId : String) (stream : List String) : Bool :=
  pairwiseB (fun a b => !(a == b)) stream &&
  memB endId stream &&
  stream.all (fun u => (parentsOf store u).all (fun p => memB p stream)) &&
  stream.all (fun u => reachB store (walkFuel store) endId u) &&
  pairwiseB (fun a b => !(memB a (parentsOf store b))) stream

def commitE : Commit := ⟨"ee", ["ss"], "alice", "add feature"⟩

def commitS : Commit := ⟨"ss", [], "bob", "init"⟩

/-- Two-commit linear history: ee has parent ss. -/
def linStore : Store := ⟨[commitE, commitS], [], fun _ => none⟩

def rootA : Commit := ⟨"aa", [], "alice", "a"⟩

def rootB : Commit := ⟨"bb", [], "bob", "b"⟩

/-- Two unrelated root commits. -/
def twoRootStore : Store := ⟨[rootA, rootB], [], fun _ => none⟩

def fullHashId : String := "f5a78eba828b905cfb559a427e1afcceb5d337ca"

def hashCommit : Commit := ⟨fullHashId, [], "alice", "m"⟩

def hashStore : Store := ⟨[hashCommit], [], fun _ => none⟩

def symCommit : Commit := ⟨"cc", [], "carol", "tagged"⟩

/-- A store whose HEAD is a symbolic reference one hop away from a
branch reference that peels to a commit. -/
def symStore : Store :=
  ⟨[symCommit],
   [("HEAD", RefTarget.symbolic "refs/heads/m"),
    ("refs/heads/m", RefTarget.direct "cc")],
   fun n => if n = "refs/heads/m" then some symCommit else none⟩

def ceCommit : Commit := ⟨"0123456789abcdef0123456789abcdef01234567", [], "dave", "x"⟩

/-- A store in which the two-character hex string ab names a direct
reference to an existing commit. -/
def hexRefStore : Store :=
  ⟨[ceCommit], [("ab", RefTarget.direct ceCommit.id)], fun _ => none⟩

def aliceC : Commit := ⟨"a1", [], "alice", "m1"⟩

def bobC : Commit := ⟨"b1", [], "bob", "m2"⟩

def aliceC2 : Commit := ⟨"c1", [], "alice", "m3"⟩

/-- A three-commit chain whose authors are alice, bob, alice. -/
def authStore : Store := ⟨[aliceC, bobC, aliceC2], [], fun _ => none⟩

theorem memB_iff {x : String} {l : List String} : memB x l = true ↔ x ∈ l := by
  simp [memB, List.any_eq_true, beq_iff_eq]

theorem pairwiseB_iff {R : String → String → Bool} {l : List String} :
    pairwiseB R l = true ↔ l.Pairwise (fun a b => R a b = true) := by
  induction l with
  | nil => simp [pairwiseB]
  | cons x xs ih => simp [pairwiseB, List.all_eq_true, List.pairwise_cons, ih]

theorem nodupB_nodup {l : List String}
    (h : pairwiseB (fun a b => !(a == b)) l = true) : l.Nodup := by
  refine (pairwiseB_iff.mp h).imp ?_
  intro a b hab
  simpa [beq_eq_false_iff_ne] using hab

theorem topoB_pairwise {store : Store} {l : List String}
    (h : pairwiseB (fun a b => !(memB a (parentsOf store b))) l = true) :
    l.Pairwise (fun a b => a ∉ parentsOf store b) := by
  refine (pairwiseB_iff.mp h).imp ?_
  intro a b hab hmem
  rw [← memB_iff] at hmem
  simp [hmem] at hab

theorem walkLoop_sublist (l : List String) (s : String) :
    (walkLoop l s).Sublist l := by
  induction l with
  | nil => exact List.Sublist.refl []
  | cons c rest ih =>
    cases h : c == s with
    | true => simp [walkLoop, h]
    | false =>
      simpa [walkLoop, h] using List.Sublist.cons₂ c ih

theorem start_not_mem_walkLoop (l : List String) (s : String) :
    s ∉ walkLoop l s := by
  induction l with
  | nil => simp [walkLoop]
  | cons c rest ih =>
    cases h : c == s with
    | true => simp [walkLoop, h]
    | false =>
      simp only [walkLoop, h, Bool.false_eq_true, if_false, List.mem_cons, not_or]
      refine ⟨fun heq => ?_, ih⟩
      rw [heq] at h
      simp at h

theorem reach_before (store : Store) (stream : List String)
    (Hnd : stream.Nodup)
    (Hcl : ∀ u ∈ stream, ∀ p ∈ parentsOf store u, p ∈ stream)
    (Htp : stream.Pairwise (fun a b => a ∉ parentsOf store b)) :
    ∀ (f : Nat) (u v : String), u ∈ stream → reachB store f u v = true →
      v ∈ stream ∧
      ∀ (i j : Fin stream.length), stream.get i = u → stream.get j = v →
        u ≠ v → i < j := by
  intro f
  induction f with
  | zero =>
    intro u v hu hr
    have huv : u = v := by simpa [reachB, beq_iff_eq] using hr
    subst huv
    exact ⟨hu, fun i j _ _ hne => absurd rfl hne⟩
  | succ n ih =>
    intro u v hu hr
    simp only [reachB, Bool.or_eq_true, List.any_eq_true, beq_iff_eq] at hr
    rcases hr with huv | ⟨p, hp, hr'⟩
    · subst huv
      exact ⟨hu, fun i j _ _ hne => absurd rfl hne⟩
    · have hpstream : p ∈ stream := Hcl u hu p hp
      obtain ⟨hv, hOrd⟩ := ih p v hpstream hr'
      refine ⟨hv, ?_⟩
      intro i j hi hj hne
      by_cases hpu : p = u
      · exact hOrd i j (by rw [hi, hpu]) hj (hpu ▸ hne)
      · obtain ⟨k, hk⟩ := List.mem_iff_get.mp hpstream
        have hik : i ≠ k := fun h => hpu (by rw [← hk, ← h, hi])
        have hpair := List.pairwise_iff_get.mp Htp
        have hlt : i < k := by
          rcases lt_or_gt_of_ne hik with h | h
          · exact h
          · exact absurd hp (by have hx := hpair k i h; rwa [hk, hi] at hx)
        by_cases hpv : p = v
        · have hjk : j = k := by
            have hinj := List.nodup_iff_injective_get.mp Hnd
            exact hinj (by rw [hj, hk, hpv])
          rw [hjk]
          exact hlt
        · exact lt_trans hlt (hOrd k j hk hj hpv)

theorem topoWalkStream_parts (store : Store) (endId : String) (stream : List String)
    (H : topoWalkStream store endId stream = true) :
    stream.Nodup ∧ endId ∈ stream ∧
    (∀ u ∈ stream, ∀ p ∈ parentsOf store u, p ∈ stream) ∧
    (∀ u ∈ stream, reachB store (walkFuel store) endId u = true) ∧
    stream.Pairwise (fun a b => a ∉ parentsOf store b) := by
  simp only [topoWalkStream, Bool.and_eq_true] at H
  obtain ⟨⟨⟨⟨Hnd, Hmem⟩, Hcl⟩, Hrc⟩, Htp⟩ := H
  refine ⟨nodupB_nodup Hnd, memB_iff.mp Hmem, ?_, ?_, topoB_pairwise Htp⟩
  · intro u hu p hp
    have h1 := (List.all_eq_true.mp Hcl) u hu
    have h2 := (List.all_eq_true.mp h1) p hp
    exact memB_iff.mp h2
  · intro u hu
    exact (List.all_eq_true.mp Hrc) u hu

theorem topoWalkStream_head (store : Store) (endId : String) (stream : List String)
    (H : topoWalkStream store endId stream = true) :
    ∃ rest, stream = endId :: rest := by
  obtain ⟨Hnd, Hmem, Hcl, Hrc, Htp⟩ := topoWalkStream_parts store endId stream H
  clear H
  cases stream with
  | nil => exact absurd Hmem (by simp)
  | cons h t =>
    by_cases heq : h = endId
    · exact ⟨t, by rw [heq]⟩
    · exfalso
      have hh : h ∈ h :: t := List.mem_cons_self h t
      have hr := Hrc h hh
      obtain ⟨_, hOrd⟩ :=
        reach_before store (h :: t) Hnd Hcl Htp (walkFuel store) endId h Hmem hr
      obtain ⟨i, hi⟩ := List.mem_iff_get.mp Hmem
      have h0 : (h :: t).get ⟨0, by simp⟩ = h := rfl
      have := hOrd i ⟨0, by simp⟩ hi h0 (fun he => heq he.symm)
      exact absurd this (by simp [Fin.lt_def])

/-- C3: the ancestry check used by the pipeline is reflexive: for every
commit c, isAncestor(c, c) returns true. -/
theorem isAncestor_refl (store : Store) (c : Commit) :
    isAncestor store c.id c.id = true := by
  unfold isAncestor descendantOf
  cases walkFuel store with
  | zero => simp [reachB]
  | succ n => simp [reachB]

/-- C5: when isAncestor(start, end) is false, walk(end, start) fails with
UnreachableError naming both endpoint identifiers and produces no chain. -/
theorem walk_unreachable_error (store : Store) (stream : List String)
    (endC startC : Commit)
    (h : isAncestor store startC.id endC.id = false) :
    getCommitChain store stream endC startC =
      Except.error (WalkError.unreachable endC.id startC.id) := by
  unfold isAncestor at h
  unfold getCommitChain
  simp [h]

/-- Witness for walk_unreachable_error: two unrelated roots. -/
theorem walk_unreachable_error_witness :
    isAncestor twoRootStore rootB.id rootA.id = false ∧
    getCommitChain twoRootStore ["aa"] rootA rootB =
      Except.error (WalkError.unreachable "aa" "bb") :=
  ⟨rfl, walk_unreachable_error twoRootStore ["aa"] rootA rootB rfl⟩

/-- C2: under the ancestry precondition, the chain of walk(end, start)
never contains the start identifier, contains the end identifier
whenever end and start differ, and is empty when they are equal. -/
theorem walk_excludes_start_includes_end (store : Store) (stream : List String)
    (endC startC : Commit) (chain : List String)
    (Hw : topoWalkStream store endC.id stream = true)
    (Hok : getCommitChain store stream endC startC = Except.ok chain) :
    startC.id ∉ chain ∧
    (endC.id ≠ startC.id → endC.id ∈ chain) ∧
    (endC.id = startC.id → chain = []) := by
  obtain ⟨rest, hstream⟩ := topoWalkStream_head store endC.id stream Hw
  have hchain : chain = walkLoop stream startC.id := by
    unfold getCommitChain at Hok
    by_cases hd : descendantOf store endC.id startC.id = true
    · rw [if_pos hd] at Hok
      exact (Except.ok.inj Hok).symm
    · rw [if_neg hd] at Hok
      exact absurd Hok (by simp)
  subst hchain
  refine ⟨start_not_mem_walkLoop stream startC.id, ?_, ?_⟩
  · intro hne
    have hb : (endC.id == startC.id) = false := beq_eq_false_iff_ne.mpr hne
    rw [hstream]
    simp [walkLoop, hb]
  · intro heq
    rw [hstream, heq]
    simp [walkLoop]

/-- Witness for walk_excludes_start_includes_end on the linear history
with walker stream [ee, ss]. -/
theorem walk_excludes_start_includes_end_witness :
    topoWalkStream linStore "ee" ["ee", "ss"] = true ∧
    getCommitChain linStore ["ee", "ss"] commitE commitS = Except.ok ["ee"] ∧
    ("ss" ∉ (["ee"] : List String) ∧
      ("ee" ≠ "ss" → "ee" ∈ (["ee"] : List String)) ∧
      ("ee" = "ss" → (["ee"] : List String) = [])) :=
  ⟨rfl, rfl,
    walk_excludes_start_includes_end linStore ["ee", "ss"] commitE commitS
      ["ee"] rfl rfl⟩

/-- C6: every successful walk chain has no duplicate identifiers and is
in reverse-topological order: each entry appears before every one of its
parents that also appears in the chain. -/
theorem walk_chain_nodup_topo (store : Store) (stream : List String)
    (endC startC : Commit) (chain : List String)
    (Hw : topoWalkStream store endC.id stream = true)
    (Hok : getCommitChain store stream endC startC = Except.ok chain) :
    chain.Nodup ∧ chain.Pairwise (fun a b => a ∉ parentsOf store b) := by
  obtain ⟨Hnd, _, _, _, Htp⟩ := topoWalkStream_parts store endC.id stream Hw
  have hchain : chain = walkLoop stream startC.id := by
    unfold getCommitChain at Hok
    by_cases hd : descendantOf store endC.id startC.id = true
    · rw [if_pos hd] at Hok
      exact (Except.ok.inj Hok).symm
    · rw [if_neg hd] at Hok
      exact absurd Hok (by simp)
  subst hchain
  have hsub := walkLoop_sublist stream startC.id
  exact ⟨List.Nodup.sublist hsub Hnd, List.Pairwise.sublist hsub Htp⟩

/-- Witness for walk_chain_nodup_topo on the linear history. -/
theorem walk_chain_nodup_topo_witness :
    topoWalkStream linStore "ee" ["ee", "ss"] = true ∧
    ((["ee"] : List String).Nodup ∧
      (["ee"] : List String).Pairwise (fun a b => a ∉ parentsOf linStore b)) :=
  ⟨rfl, walk_chain_nodup_topo linStore ["ee", "ss"] commitE commitS ["ee"] rfl rfl⟩

/-- C4 (code bug): when the walker's emission stream ends without the
start identifier ever appearing, getCommitChain returns the partial
chain instead of aborting with a traversal-exhausted error. The
source's post-loop error check reads the outer err variable (the
for-init declares a fresh err), and the outer err is necessarily nil
once Push succeeded, so the check can never fire. Here ee has parent
ss, the precondition passes, the walker emits only ee and stops, and
the partial chain [ee] is returned without any error. -/
theorem walk_returns_partial_chain_on_exhaustion :
    getCommitChain linStore ["ee"] commitE commitS = Except.ok ["ee"] := rfl

/-- C1 (code bug): with configured width 8 on a 40-character identifier
the identifier rendered in the report table is the first 7 characters,
not 8: truncateBytes returns the slice b[0 : n-1]. -/
theorem truncation_drops_final_character :
    truncateBytes ("f5a78eba828b905cfb559a427e1afcceb5d337ca".toList) 8 =
      some ("f5a78eb".toList) ∧
    renderedCommitID hashStore 8 fullHashId = some "f5a78eb" ∧
    ("f5a78eb".toList).length ≠ 8 := by
  refine ⟨rfl, rfl, by decide⟩

theorem strMk_toList (s : String) : String.mk s.toList = s := rfl

/-- C8: a configured commitHashDigits of zero or below is normalized by
parseJSONConfig to the no-truncation sentinel, and the identifier
rendered in the report is then the full identifier, unchanged. -/
theorem no_truncation_sentinel (store : Store) (oid : String) (c : Commit)
    (d : Int) (hd : d ≤ 0) (hc : lookupCommit store.commits oid = some c) :
    renderedCommitID store (normalizeHashDigits d) oid = some c.id := by
  unfold renderedCommitID
  rw [hc]
  unfold normalizeHashDigits
  rw [if_pos hd]
  simp [truncateBytes, strMk_toList]

/-- Witness for no_truncation_sentinel with a configured width of 0. -/
theorem no_truncation_sentinel_witness :
    (0 : Int) ≤ 0 ∧
    lookupCommit hashStore.commits fullHashId = some hashCommit ∧
    renderedCommitID hashStore (normalizeHashDigits 0) fullHashId =
      some hashCommit.id :=
  ⟨le_refl 0, rfl,
    no_truncation_sentinel hashStore fullHashId hashCommit 0 (le_refl 0) rfl⟩

/-- C7: an endpoint naming a symbolic reference is followed exactly one
additional level: the target reference is resolved and peeled down to a
commit, and resolution fails with ResolutionError when the one-level
target is absent or peeling does not yield a commit. -/
theorem resolve_symbolic_one_hop (store : Store) (ep target : String)
    (h1 : hexDecodable ep = false)
    (h2 : lookupRef store ep = some (RefTarget.symbolic target)) :
    getCommit store ep =
      (match lookupRef store target with
       | none => Except.error ResolveError.resolutionError
       | some _ =>
         match store.peel target with
         | some c => Except.ok c
         | none => Except.error ResolveError.resolutionError) := by
  simp [getCommit, h1, h2]

/-- Witness for resolve_symbolic_one_hop: HEAD is symbolic to a branch
reference that peels to a commit. -/
theorem resolve_symbolic_one_hop_witness :
    hexDecodable "HEAD" = false ∧
    lookupRef symStore "HEAD" = some (RefTarget.symbolic "refs/heads/m") ∧
    getCommit symStore "HEAD" =
      (match lookupRef symStore "refs/heads/m" with
       | none => Except.error ResolveError.resolutionError
       | some _ =>
         match symStore.peel "refs/heads/m" with
         | some c => Except.ok c
         | none => Except.error ResolveError.resolutionError) :=
  ⟨rfl, rfl, resolve_symbolic_one_hop symStore "HEAD" "refs/heads/m" rfl rfl⟩

/-- C9 counterexample: the endpoint ab is not a fixed-length hex
identifier and it names an existing, resolvable reference, yet resolve
does not treat it as a reference name: hex decoding succeeds, so the
commit-lookup path is taken and resolution fails without the reference
namespace ever being consulted. -/
theorem hex_endpoint_not_treated_as_ref :
    ¬("ab".length = 40) ∧
    lookupRef hexRefStore "ab" = some (RefTarget.direct ceCommit.id) ∧
    lookupCommit hexRefStore.commits ceCommit.id = some ceCommit ∧
    getCommit hexRefStore "ab" = Except.error ResolveError.oidError :=
  ⟨by decide, rfl, rfl, rfl⟩

/-- C9 (amended): resolve dispatches on hex-decodability, not on being a
fixed-length identifier: whenever hex decoding of the endpoint succeeds
(even length, all hex digits), the commit-lookup path is taken and the
outcome does not depend on the reference namespace or peel capability;
on that path a 40-character identifier is looked up directly (the
matching commit when present, NotFoundError when absent), and any other
hex-decodable endpoint fails on oid construction. Only endpoints whose
hex decoding fails are treated as reference names, failing with
NotFoundError when absent from the reference namespace. -/
theorem resolve_dispatch_on_hex_decodability
    (cs : List Commit) (rs rs' : List (String × RefTarget))
    (pl pl' : String → Option Commit) (ep : String) :
    (hexDecodable ep = true →
      getCommit ⟨cs, rs, pl⟩ ep = getCommit ⟨cs, rs', pl'⟩ ep ∧
      getCommit ⟨cs, rs, pl⟩ ep =
        (if ep.length = 40 then
          match lookupCommit cs ep.toLower with
          | some c => Except.ok c
          | none => Except.error ResolveError.notFound
        else Except.error ResolveError.oidError)) ∧
    (hexDecodable ep = false → lookupRef ⟨cs, rs, pl⟩ ep = none →
      getCommit ⟨cs, rs, pl⟩ ep = Except.error ResolveError.notFound) := by
  constructor
  · intro h
    constructor <;> simp [getCommit, h]
  · intro h hr
    simp [getCommit, h, hr]

/-- Witness for resolve_dispatch_on_hex_decodability: the present
40-character identifier is resolved identically under two reference
namespaces, and the non-hex endpoint zz, absent from the reference
namespace, fails with the not-found error. -/
theorem resolve_dispatch_on_hex_decodability_witness :
    hexDecodable ceCommit.id = true ∧
    hexDecodable "zz" = false ∧
    lookupRef ⟨[ceCommit], [], fun _ => none⟩ "zz" = none ∧
    (getCommit ⟨[ceCommit], [], fun _ => none⟩ ceCommit.id =
        getCommit ⟨[ceCommit], [("x", RefTarget.direct "y")], fun _ => none⟩
          ceCommit.id ∧
      getCommit ⟨[ceCommit], [], fun _ => none⟩ ceCommit.id =
        (if ceCommit.id.length = 40 then
          match lookupCommit [ceCommit] ceCommit.id.toLower with
          | some c => Except.ok c
          | none => Except.error ResolveError.notFound
        else Except.error ResolveError.oidError)) ∧
    getCommit ⟨[ceCommit], [], fun _ => none⟩ "zz" =
      Except.error ResolveError.notFound :=
  ⟨rfl, rfl, rfl,
    (resolve_dispatch_on_hex_decodability [ceCommit] []
      [("x", RefTarget.direct "y")] (fun _ => none) (fun _ => none)
      ceCommit.id).1 rfl,
    (resolve_dispatch_on_hex_decodability [ceCommit] [] []
      (fun _ => none) (fun _ => none) "zz").2 rfl rfl⟩

theorem insertAuthor_mem {acc : List String} {n a : String} :
    a ∈ insertAuthor acc n ↔ a ∈ acc ∨ a = n := by
  by_cases h : memB n acc = true
  · have hn : n ∈ acc := memB_iff.mp h
    simp only [insertAuthor, h, if_true]
    exact ⟨Or.inl, fun x => x.elim id (fun he => he ▸ hn)⟩
  · simp only [insertAuthor, h, if_false]
    simp [List.mem_append]

theorem insertAuthor_nodup {acc : List String} {n : String}
    (h : acc.Nodup) : (insertAuthor acc n).Nodup := by
  by_cases hm : memB n acc = true
  · simpa [insertAuthor, hm] using h
  · have hn : n ∉ acc := fun hx => hm (memB_iff.mpr hx)
    simp [insertAuthor, hm, List.nodup_append, h, hn]

theorem chainAuthors_mem (store : Store) :
    ∀ (chain acc names : List String),
      chainAuthors store acc chain = some names →
      ∀ a, a ∈ names ↔ a ∈ acc ∨
        ∃ oid ∈ chain, ∃ c, lookupCommit store.commits oid = some c ∧
          c.authorName = a := by
  intro chain
  induction chain with
  | nil =>
    intro acc names h a
    have : acc = names := by simpa [chainAuthors] using h
    subst this
    simp
  | cons oid rest ih =>
    intro acc names h a
    cases hc : lookupCommit store.commits oid with
    | none => simp [chainAuthors, hc] at h
    | some c =>
      rw [chainAuthors, hc] at h
      rw [ih _ _ h a, insertAuthor_mem]
      constructor
      · rintro ((ha | ha) | ⟨o, ho, c', hc', ha⟩)
        · exact Or.inl ha
        · exact Or.inr ⟨oid, List.mem_cons_self oid rest, c, hc, ha.symm⟩
        · exact Or.inr ⟨o, List.mem_cons_of_mem _ ho, c', hc', ha⟩
      · rintro (ha | ⟨o, ho, c', hc', ha⟩)
        · exact Or.inl (Or.inl ha)
        · rcases List.mem_cons.mp ho with rfl | ho'
          · rw [hc] at hc'
            cases Option.some.inj hc'
            exact Or.inl (Or.inr ha.symm)
          · exact Or.inr ⟨o, ho', c', hc', ha⟩

theorem chainAuthors_nodup (store : Store) :
    ∀ (chain acc names : List String), acc.Nodup →
      chainAuthors store acc chain = some names → names.Nodup := by
  intro chain
  induction chain with
  | nil =>
    intro acc names hnd h
    have : acc = names := by simpa [chainAuthors] using h
    exact this ▸ hnd
  | cons oid rest ih =>
    intro acc names hnd h
    cases hc : lookupCommit store.commits oid with
    | none => simp [chainAuthors, hc] at h
    | some c =>
      rw [chainAuthors, hc] at h
      exact ih _ _ (insertAuthor_nodup hnd) h

theorem strToList_append (a b : String) :
    (a ++ b).toList = a.toList ++ b.toList := by
  cases a
  cases b
  rfl

theorem foldl_comma_toList :
    ∀ (names : List String) (acc : String),
      (names.foldl (fun s n => s ++ n ++ ",") acc).toList =
        acc.toList ++ (names.map (fun n => n.toList ++ [','])).flatten := by
  intro names
  induction names with
  | nil => intro acc; simp
  | cons n ns ih =>
    intro acc
    simp only [List.foldl_cons, List.map_cons, List.flatten_cons, ih,
      strToList_append]
    simp [List.append_assoc]

/-- C10 counterexample: for the chain whose commit authors are alice,
bob, alice the rendered Authors field is alice,bob, with a trailing
comma after the final name, not the plain comma-joined alice,bob. -/
theorem author_list_trailing_comma :
    getAuthorListString authStore ["a1", "b1", "c1"] = some "alice,bob," ∧
    "alice,bob," ≠ String.intercalate "," ["alice", "bob"] :=
  ⟨rfl, by decide⟩

/-- C10 (amended): the Authors field is the deduplicated set of the
chain's author names, rendered as every distinct name followed by a
comma (including one after the final name): the computed name list has
no duplicates, contains exactly the author names occurring on the
chain's commits, and the rendered string is their concatenation with a
comma appended to each name. -/
theorem author_list_dedup (store : Store) (chain names : List String)
    (h : chainAuthors store [] chain = some names) :
    names.Nodup ∧
    (∀ a, a ∈ names ↔
      ∃ oid ∈ chain, ∃ c, lookupCommit store.commits oid = some c ∧
        c.authorName = a) ∧
    (getAuthorListString store chain).map String.toList =
      some ((names.map (fun n => n.toList ++ [','])).flatten) := by
  refine ⟨chainAuthors_nodup store chain [] names List.nodup_nil h, ?_, ?_⟩
  · intro a
    rw [chainAuthors_mem store chain [] names h a]
    simp
  · unfold getAuthorListString
    rw [h]
    simp
    exact foldl_comma_toList names ""

/-- Witness for author_list_dedup on the alice, bob, alice chain. -/
theorem author_list_dedup_witness :
    chainAuthors authStore [] ["a1", "b1", "c1"] = some ["alice", "bob"] ∧
    ((["alice", "bob"] : List String).Nodup ∧
      (∀ a, a ∈ (["alice", "bob"] : List String) ↔
        ∃ oid ∈ (["a1", "b1", "c1"] : List String), ∃ c,
          lookupCommit authStore.commits oid = some c ∧ c.authorName = a) ∧
      (getAuthorListString authStore ["a1", "b1", "c1"]).map String.toList =
        some (((["alice", "bob"] : List String).map
          (fun n => n.toList ++ [','])).flatten)) :=
  ⟨rfl, author_list_dedup authStore ["a1", "b1", "c1"] ["alice", "bob"] rfl⟩
